import Mathlib

/-!
Shallow embedding of the relevance-selection engine of `resume_builder.py`:
the tokenizer (`normalize`, `tokenize`), the scorer (`score_item`), the
selector (`select_relevant` with its skills passes and `rank_section`), and
the summary composer (`make_summary`), together with theorems about them.
-/

namespace ResumeBuilder

/-- The character class of the tokenizer regex `[a-z0-9+#.]`. -/
def isTokChar (c : Char) : Bool :=
  (decide ('a' ≤ c) && decide (c ≤ 'z')) || (decide ('0' ≤ c) && decide (c ≤ '9'))
    || c == '+' || c == '#' || c == '.'

/-- ASCII model of `str.lower` (the tokenizer keeps only ASCII characters, so
non-ASCII case mapping is never observable through token sets). -/
def lowerStr (s : String) : String := String.mk (s.data.map Char.toLower)

/-- Accumulator pass that extracts the maximal runs of token characters;
`cur` holds the characters of the run in progress, in reverse. -/
def runsAux : List Char → List Char → List String
  | [], cur => if cur = [] then [] else [String.mk cur.reverse]
  | c :: cs, cur =>
    if isTokChar c then runsAux cs (c :: cur)
    else if cur = [] then runsAux cs []
    else String.mk cur.reverse :: runsAux cs []

/-- `re.findall(r"[a-z0-9+#.]+", text.lower())`. -/
def normalize (text : String) : List String := runsAux (lowerStr text).data []

/-- `set(normalize(text))`. -/
def tokenize (text : String) : Finset String := (normalize text).toFinset

/-- A JSON-ish field value of a knowledge-base item: a string or a list of
strings (the shapes the engine reads for descriptions, tags, tech, roles). -/
inductive Value where
  | vs : String → Value
  | vl : List String → Value
deriving DecidableEq

/-- A knowledge-base item: a finite mapping from field names to values,
as an association list (first binding wins, as in a dict). -/
abbrev Item := List (String × Value)

/-- `item.get(k)`: the first binding of `k`, if any. -/
def itemGet (it : Item) (k : String) : Option Value :=
  (it.find? (fun p => p.1 == k)).map (fun p => p.2)

/-- CPython `repr` of a `str`, for strings without backslashes or control
characters (the only shapes the engine's data carries). -/
def pyRepr (s : String) : String :=
  let q := Char.ofNat 39
  let dq := Char.ofNat 34
  if s.data.contains q && !(s.data.contains dq) then
    String.mk (dq :: s.data ++ [dq])
  else if s.data.contains q then
    String.mk (q :: s.data.foldr
      (fun c acc => if c = q then Char.ofNat 92 :: q :: acc else c :: acc) [q])
  else
    String.mk (q :: s.data ++ [q])

/-- Python `str()` of a field value: strings unchanged, lists rendered as
Python list literals. -/
def pyStr : Value → String
  | Value.vs s => s
  | Value.vl l => "[" ++ String.intercalate ", " (l.map pyRepr) ++ "]"

/-- `item.get(tags_field, [])`: a missing field is the empty list; a string
value is iterated character by character, as Python iteration over a `str`
would yield. -/
def itemTags (it : Item) (tagsField : String) : List String :=
  match itemGet it tagsField with
  | some (Value.vl l) => l
  | some (Value.vs s) => s.data.map (fun c => String.mk [c])
  | none => []

/-- `3 * len(set(lowered tags) & jd_tokens)`. -/
def tagBonus (jd : Finset String) (it : Item) (tagsField : String) : Nat :=
  3 * (((itemTags it tagsField).map lowerStr).toFinset ∩ jd).card

/-- `len(set(normalize(str(item.get(f, "")).lower())) & jd_tokens)`. -/
def fieldBonus (jd : Finset String) (it : Item) (f : String) : Nat :=
  ((normalize (lowerStr (pyStr ((itemGet it f).getD (Value.vs ""))))).toFinset ∩ jd).card

/-- `score_item(jd_tokens, item, fields, tags_field)`. -/
def score_item (jd : Finset String) (it : Item) (fields : List String)
    (tagsField : String) : Nat :=
  tagBonus jd it tagsField + (fields.map (fieldBonus jd it)).sum

/-- The knowledge base: the collections the selector reads. -/
structure KB where
  skills : List String
  projects : List Item
  experience : List Item
  certificates : List Item
  education : List Item

/-- The per-category caps; `none` models an absent dict key, for which the
selector substitutes its internal fallback. -/
structure Limits where
  skills : Option Nat
  projects : Option Nat
  experience : Option Nat
  certificates : Option Nat
  education : Option Nat

/-- The skills pass-2 loop: walk the knowledge-base skills in order, skip a
skill already in the accumulated list, append it when its token set meets
the job-description tokens. -/
def pass2 (jd : Finset String) : List String → List String → List String
  | [], acc => acc
  | s :: rest, acc =>
    if s ∈ acc then pass2 jd rest acc
    else if ((normalize s).toFinset ∩ jd).Nonempty then pass2 jd rest (acc ++ [s])
    else pass2 jd rest acc

/-- The skills block of `select_relevant`: exact-match pass, conditional
partial-match pass, truncation. -/
def matchedSkills (jd : Finset String) (kbSkills : List String) (limit : Nat) :
    List String :=
  let m1 := kbSkills.filter (fun s => decide (lowerStr s ∈ jd))
  let m2 := if m1.length < limit then pass2 jd kbSkills m1 else m1
  m2.take limit

/-- The scored list of `rank_section` after dropping zero scores:
`[x for x in scored if x[0] > 0]`. -/
def posScored (jd : Finset String) (items : List Item) (fields : List String) :
    List (Nat × Item) :=
  (items.map (fun it => (score_item jd it fields "tags", it))).filter
    (fun x => decide (0 < x.1))

/-- Insertion step of the stable descending sort: a new element passes the
strictly larger keys and stops before the first key less than or equal to
its own, so earlier elements precede equal keys. -/
def insertDesc {α : Type} (key : α → Nat) (p : α) : List α → List α
  | [] => [p]
  | q :: qs => if key p < key q then q :: insertDesc key p qs else p :: q :: qs

/-- Stable descending sort by key: `list.sort(key=..., reverse=True)` (a
stable sort's output is uniquely determined by the key order, so any
faithful stable implementation gives the same list). -/
def sortDesc {α : Type} (key : α → Nat) : List α → List α
  | [] => []
  | x :: xs => insertDesc key x (sortDesc key xs)

/-- `rank_section(items, fields, limit)` of `select_relevant`. -/
def rank_section (jd : Finset String) (items : List Item) (fields : List String)
    (limit : Nat) : List Item :=
  ((sortDesc Prod.fst (posScored jd items fields)).take limit).map Prod.snd

def projectFields : List String := ["description", "name", "tech"]

def experienceFields : List String := ["description", "role", "company"]

def certificateFields : List String := ["name", "issuer"]

/-- `select_relevant(kb, jd_text, limits)`: the 6-tuple of matched skills,
ranked projects, ranked experience, ranked certificates, truncated
education, and the job-description token set. -/
def select_relevant (kb : KB) (jdText : String) (limits : Limits) :
    List String × List Item × List Item × List Item × List Item × Finset String :=
  let jd := tokenize jdText
  (matchedSkills jd kb.skills (limits.skills.getD 10),
   rank_section jd kb.projects projectFields (limits.projects.getD 3),
   rank_section jd kb.experience experienceFields (limits.experience.getD 3),
   rank_section jd kb.certificates certificateFields (limits.certificates.getD 3),
   kb.education.take (limits.education.getD 2),
   jd)

/-- Lexicographic code-point comparison of character lists, the order Python
uses on strings. -/
def charListLe : List Char → List Char → Bool
  | [], _ => true
  | _ :: _, [] => false
  | a :: as, b :: bs =>
    if a.toNat < b.toNat then true
    else if b.toNat < a.toNat then false
    else charListLe as bs

/-- Python string comparison. -/
def strLe (s t : String) : Bool := charListLe s.data t.data

/-- Ascending insertion for string sorting. -/
def insertAsc (s : String) : List String → List String
  | [] => [s]
  | t :: ts => if strLe s t then s :: t :: ts else t :: insertAsc s ts

/-- Ascending string sort, modelling Python `sorted`. -/
def sortAsc : List String → List String
  | [] => []
  | s :: ss => insertAsc s (sortAsc ss)

/-- `sorted(list(jd_tokens & set(s.lower() for s in skills)))`: the ascending
list of the distinct lower-cased skills present in the job-description token
set (the sorted output depends only on the intersection as a set). -/
def keyTermsOf (jd : Finset String) (skills : List String) : List String :=
  sortAsc (((skills.map lowerStr).filter (fun s => decide (s ∈ jd))).dedup)

/-- `make_summary(jd_tokens, skills, projects, experience, kb)`. -/
def make_summary (jd : Finset String) (skills : List String)
    (projects experience : List Item) (kb : KB) : String :=
  let keyTerms := (keyTermsOf jd skills).take 6
  let first :=
    if experience ≠ [] then
      [pyStr ((itemGet experience.headI "role").getD (Value.vs "Engineer")) ++
        " with hands-on work in " ++
        (if keyTerms = [] then "relevant tools" else String.intercalate ", " keyTerms)]
    else if projects ≠ [] then
      ["Engineer with projects in " ++
        (if keyTerms = [] then "relevant areas" else String.intercalate ", " keyTerms)]
    else []
  let second :=
    if projects ≠ [] then
      ["Delivered " ++ toString projects.length ++ " relevant project(s)."]
    else []
  String.intercalate " " (first ++ second)

/-! ## Helper lemmas: the stable descending sort -/

theorem insertDesc_cons_lt {α : Type} {key : α → Nat} {p q : α} {qs : List α}
    (h : key p < key q) : insertDesc key p (q :: qs) = q :: insertDesc key p qs := by
  simp [insertDesc, h]

theorem insertDesc_cons_ge {α : Type} {key : α → Nat} {p q : α} {qs : List α}
    (h : ¬ key p < key q) : insertDesc key p (q :: qs) = p :: q :: qs := by
  simp [insertDesc, h]

theorem insertDesc_perm {α : Type} (key : α → Nat) (p : α) :
    ∀ l : List α, List.Perm (insertDesc key p l) (p :: l) := by
  intro l
  induction l with
  | nil => simp [insertDesc]
  | cons q qs ih =>
    by_cases h : key p < key q
    · rw [insertDesc_cons_lt h]
      exact (ih.cons q).trans (List.Perm.swap p q qs)
    · rw [insertDesc_cons_ge h]

theorem sortDesc_perm {α : Type} (key : α → Nat) :
    ∀ l : List α, List.Perm (sortDesc key l) l := by
  intro l
  induction l with
  | nil => simp [sortDesc]
  | cons x xs ih => exact (insertDesc_perm key x (sortDesc key xs)).trans (ih.cons x)

theorem mem_sortDesc {α : Type} {key : α → Nat} {l : List α} {x : α}
    (h : x ∈ sortDesc key l) : x ∈ l :=
  (sortDesc_perm key l).mem_iff.mp h

theorem insertDesc_pairwise {α : Type} (key : α → Nat) (p : α) :
    ∀ l : List α, List.Pairwise (fun a b => key b ≤ key a) l →
      List.Pairwise (fun a b => key b ≤ key a) (insertDesc key p l) := by
  intro l
  induction l with
  | nil => intro _; simp [insertDesc]
  | cons q qs ih =>
    intro h
    rcases List.pairwise_cons.mp h with ⟨hq, hqs⟩
    by_cases hlt : key p < key q
    · rw [insertDesc_cons_lt hlt]
      refine List.pairwise_cons.mpr ⟨?_, ih hqs⟩
      intro x hx
      rcases List.mem_cons.mp ((insertDesc_perm key p qs).mem_iff.mp hx) with hx' | hx'
      · exact hx' ▸ Nat.le_of_lt hlt
      · exact hq x hx'
    · rw [insertDesc_cons_ge hlt]
      refine List.pairwise_cons.mpr ⟨?_, h⟩
      intro x hx
      rcases List.mem_cons.mp hx with hx' | hx'
      · exact hx' ▸ Nat.le_of_not_lt hlt
      · exact (hq x hx').trans (Nat.le_of_not_lt hlt)

theorem sortDesc_pairwise {α : Type} (key : α → Nat) :
    ∀ l : List α, List.Pairwise (fun a b => key b ≤ key a) (sortDesc key l) := by
  intro l
  induction l with
  | nil => simp [sortDesc]
  | cons x xs ih => exact insertDesc_pairwise key x (sortDesc key xs) ih

theorem insertDesc_filter_ne {α : Type} (key : α → Nat) (p : α) (k : Nat)
    (hne : key p ≠ k) :
    ∀ l : List α, (insertDesc key p l).filter (fun a => key a == k)
      = l.filter (fun a => key a == k) := by
  intro l
  induction l with
  | nil => simp [insertDesc, List.filter_cons, hne]
  | cons q qs ih =>
    by_cases hlt : key p < key q
    · rw [insertDesc_cons_lt hlt, List.filter_cons, List.filter_cons, ih]
    · rw [insertDesc_cons_ge hlt, List.filter_cons]
      have hpk : (key p == k) = false := by simp [hne]
      rw [hpk]
      simp

theorem insertDesc_filter_eq {α : Type} (key : α → Nat) (p : α) (k : Nat)
    (heq : key p = k) :
    ∀ l : List α, (insertDesc key p l).filter (fun a => key a == k)
      = p :: l.filter (fun a => key a == k) := by
  intro l
  induction l with
  | nil => simp [insertDesc, List.filter_cons, heq]
  | cons q qs ih =>
    by_cases hlt : key p < key q
    · have hqk : (key q == k) = false := by simp; omega
      rw [insertDesc_cons_lt hlt, List.filter_cons, hqk, List.filter_cons, hqk, ih]
      simp
    · have hpk : (key p == k) = true := by simp [heq]
      rw [insertDesc_cons_ge hlt, List.filter_cons, hpk]
      simp

theorem sortDesc_filter {α : Type} (key : α → Nat) (k : Nat) :
    ∀ l : List α, (sortDesc key l).filter (fun a => key a == k)
      = l.filter (fun a => key a == k) := by
  intro l
  induction l with
  | nil => rfl
  | cons x xs ih =>
    by_cases hx : key x = k
    · rw [sortDesc, insertDesc_filter_eq key x k hx (sortDesc key xs), ih,
        List.filter_cons]
      simp [hx]
    · rw [sortDesc, insertDesc_filter_ne key x k hx (sortDesc key xs), ih,
        List.filter_cons]
      simp [hx]

theorem filter_take_pfx {α : Type} (p : α → Bool) :
    ∀ (l : List α) (n : Nat), (l.take n).filter p <+: l.filter p := by
  intro l
  induction l with
  | nil => intro n; simp
  | cons x xs ih =>
    intro n
    cases n with
    | zero => simp
    | succ m =>
      rw [List.take_succ_cons, List.filter_cons, List.filter_cons]
      by_cases hx : p x
      · simp only [if_pos hx]
        obtain ⟨t, ht⟩ := ih m
        exact ⟨t, by rw [List.cons_append, ht]⟩
      · simp only [if_neg hx]
        exact ih m

/-! ## Helper lemmas: the tokenizer -/

theorem runsAux_chars :
    ∀ (cs cur : List Char), (∀ c ∈ cur, isTokChar c) →
      ∀ tok ∈ runsAux cs cur, ∀ ch ∈ tok.data, isTokChar ch := by
  intro cs
  induction cs with
  | nil =>
    intro cur hcur tok htok ch hch
    by_cases hc : cur = []
    · simp [runsAux, hc] at htok
    · simp only [runsAux, if_neg hc, List.mem_singleton] at htok
      subst htok
      exact hcur ch (List.mem_reverse.mp hch)
  | cons c cs ih =>
    intro cur hcur tok htok
    by_cases hc : isTokChar c
    · simp only [runsAux, if_pos hc] at htok
      refine ih (c :: cur) ?_ tok htok
      intro x hx
      rcases List.mem_cons.mp hx with hx' | hx'
      · exact hx' ▸ hc
      · exact hcur x hx'
    · by_cases hcur0 : cur = []
      · simp only [runsAux, if_neg hc, if_pos hcur0] at htok
        exact ih [] (by simp) tok htok
      · simp only [runsAux, if_neg hc, if_neg hcur0, List.mem_cons] at htok
        rcases htok with htok | htok
        · subst htok
          intro ch hch
          exact hcur ch (List.mem_reverse.mp hch)
        · exact ih [] (by simp) tok htok

theorem normalize_chars {text tok : String} (h : tok ∈ normalize text) :
    ∀ ch ∈ tok.data, isTokChar ch :=
  runsAux_chars (lowerStr text).data [] (by simp) tok h

theorem not_mem_tokenize {text t : String} (hbad : ∃ c ∈ t.data, ¬ isTokChar c) :
    t ∉ tokenize text := by
  intro hmem
  obtain ⟨c, hc, hcbad⟩ := hbad
  exact hcbad (normalize_chars (List.mem_toFinset.mp hmem) c hc)

/-! ## Helper lemmas: the selector -/

theorem mem_posScored {jd : Finset String} {items : List Item} {fields : List String}
    {p : Nat × Item} (h : p ∈ posScored jd items fields) :
    p.2 ∈ items ∧ p.1 = score_item jd p.2 fields "tags" ∧ 0 < p.1 := by
  unfold posScored at h
  rcases List.mem_filter.mp h with ⟨hmem, hpos⟩
  rcases List.mem_map.mp hmem with ⟨it, hit, heq⟩
  subst heq
  exact ⟨hit, rfl, of_decide_eq_true hpos⟩

theorem mem_rank_pairs {jd : Finset String} {items : List Item} {fields : List String}
    {limit : Nat} {p : Nat × Item}
    (h : p ∈ (sortDesc Prod.fst (posScored jd items fields)).take limit) :
    p.2 ∈ items ∧ p.1 = score_item jd p.2 fields "tags" ∧ 0 < p.1 :=
  mem_posScored (mem_sortDesc (List.take_subset _ _ h))

theorem mem_rank_section {jd : Finset String} {items : List Item} {fields : List String}
    {limit : Nat} {it : Item} (h : it ∈ rank_section jd items fields limit) :
    it ∈ items ∧ 0 < score_item jd it fields "tags" := by
  unfold rank_section at h
  rcases List.mem_map.mp h with ⟨p, hp, heq⟩
  obtain ⟨hmem, hsc, hpos⟩ := mem_rank_pairs hp
  subst heq
  exact ⟨hmem, hsc ▸ hpos⟩

theorem pass2_cons (jd : Finset String) (s : String) (rest acc : List String) :
    pass2 jd (s :: rest) acc
      = if s ∈ acc then pass2 jd rest acc
        else if ((normalize s).toFinset ∩ jd).Nonempty then pass2 jd rest (acc ++ [s])
        else pass2 jd rest acc := rfl

theorem mem_pass2 (jd : Finset String) :
    ∀ (l acc : List String) (x : String), x ∈ pass2 jd l acc → x ∈ acc ∨ x ∈ l := by
  intro l
  induction l with
  | nil => intro acc x h; exact Or.inl h
  | cons s rest ih =>
    intro acc x h
    rw [pass2_cons] at h
    by_cases h1 : s ∈ acc
    · rw [if_pos h1] at h
      rcases ih acc x h with h' | h'
      · exact Or.inl h'
      · exact Or.inr (List.mem_cons_of_mem s h')
    · rw [if_neg h1] at h
      by_cases h2 : ((normalize s).toFinset ∩ jd).Nonempty
      · rw [if_pos h2] at h
        rcases ih (acc ++ [s]) x h with h' | h'
        · rcases List.mem_append.mp h' with h'' | h''
          · exact Or.inl h''
          · rw [List.mem_singleton] at h''
            exact Or.inr (h'' ▸ List.mem_cons_self s rest)
        · exact Or.inr (List.mem_cons_of_mem s h')
      · rw [if_neg h2] at h
        rcases ih acc x h with h' | h'
        · exact Or.inl h'
        · exact Or.inr (List.mem_cons_of_mem s h')

theorem pass2_nodup (jd : Finset String) :
    ∀ (l acc : List String), acc.Nodup → (pass2 jd l acc).Nodup := by
  intro l
  induction l with
  | nil => intro acc h; exact h
  | cons s rest ih =>
    intro acc h
    rw [pass2_cons]
    by_cases h1 : s ∈ acc
    · rw [if_pos h1]; exact ih acc h
    · rw [if_neg h1]
      by_cases h2 : ((normalize s).toFinset ∩ jd).Nonempty
      · rw [if_pos h2]
        refine ih (acc ++ [s]) ?_
        rw [List.nodup_append]
        refine ⟨h, List.nodup_singleton s, ?_⟩
        intro a ha hb
        rw [List.mem_singleton] at hb
        exact h1 (hb ▸ ha)
      · rw [if_neg h2]; exact ih acc h

theorem mem_matchedSkills {jd : Finset String} {ks : List String} {limit : Nat}
    {x : String} (h : x ∈ matchedSkills jd ks limit) : x ∈ ks := by
  simp only [matchedSkills] at h
  have h2 := List.take_subset _ _ h
  by_cases hc : (ks.filter (fun s => decide (lowerStr s ∈ jd))).length < limit
  · rw [if_pos hc] at h2
    rcases mem_pass2 jd ks _ x h2 with h' | h'
    · exact List.mem_of_mem_filter h'
    · exact h'
  · rw [if_neg hc] at h2
    exact List.mem_of_mem_filter h2

theorem matchedSkills_nodup {jd : Finset String} {ks : List String} {limit : Nat}
    (h : ks.Nodup) : (matchedSkills jd ks limit).Nodup := by
  have h1 : (ks.filter (fun s => decide (lowerStr s ∈ jd))).Nodup := h.filter _
  simp only [matchedSkills]
  refine List.Nodup.sublist (List.take_sublist _ _) ?_
  by_cases hc : (ks.filter (fun s => decide (lowerStr s ∈ jd))).length < limit
  · rw [if_pos hc]; exact pass2_nodup jd ks _ h1
  · rw [if_neg hc]; exact h1

theorem rank_section_nodup {jd : Finset String} {items : List Item}
    {fields : List String} {limit : Nat} (h : items.Nodup) :
    (rank_section jd items fields limit).Nodup := by
  have h1 : (items.map (fun it => (score_item jd it fields "tags", it))).Nodup := by
    refine h.map ?_
    intro a b hab
    exact congrArg Prod.snd hab
  have h2 : (posScored jd items fields).Nodup := h1.filter _
  have h3 : (sortDesc Prod.fst (posScored jd items fields)).Nodup :=
    ((sortDesc_perm Prod.fst _).nodup_iff).mpr h2
  have h4 : ((sortDesc Prod.fst (posScored jd items fields)).take limit).Nodup :=
    List.Nodup.sublist (List.take_sublist _ _) h3
  unfold rank_section
  refine List.Nodup.map_on ?_ h4
  intro p hp q hq hpq
  obtain ⟨_, hsp, _⟩ := mem_rank_pairs hp
  obtain ⟨_, hsq, _⟩ := mem_rank_pairs hq
  have h5 : p.1 = q.1 := by rw [hsp, hsq, hpq]
  exact Prod.ext h5 hpq

theorem posScored_map_snd (jd : Finset String) (fields : List String) :
    ∀ items : List Item, (posScored jd items fields).map Prod.snd
      = items.filter (fun it => decide (0 < score_item jd it fields "tags")) := by
  intro items
  induction items with
  | nil => rfl
  | cons it its ih =>
    simp only [posScored, List.map_cons, List.filter_cons] at ih ⊢
    by_cases hp : (0 < score_item jd it fields "tags")
    · simp [hp, ih]
    · simp [hp, ih]

theorem rank_section_pairwise (jd : Finset String) (items : List Item)
    (fields : List String) (limit : Nat) :
    List.Pairwise
      (fun a b => score_item jd b fields "tags" ≤ score_item jd a fields "tags")
      (rank_section jd items fields limit) := by
  unfold rank_section
  rw [List.pairwise_map]
  have hs : List.Pairwise (fun a b : Nat × Item => b.1 ≤ a.1)
      ((sortDesc Prod.fst (posScored jd items fields)).take limit) :=
    (sortDesc_pairwise Prod.fst _).sublist (List.take_sublist _ _)
  refine hs.imp_of_mem ?_
  intro a b ha hb hab
  obtain ⟨_, hsa, _⟩ := mem_rank_pairs ha
  obtain ⟨_, hsb, _⟩ := mem_rank_pairs hb
  rw [← hsa, ← hsb]
  exact hab

theorem matchedSkills_length_le (jd : Finset String) (ks : List String) (limit : Nat) :
    (matchedSkills jd ks limit).length ≤ limit := by
  simp only [matchedSkills]
  rw [List.length_take]
  exact min_le_left _ _

theorem rank_section_length_le (jd : Finset String) (items : List Item)
    (fields : List String) (limit : Nat) :
    (rank_section jd items fields limit).length ≤ limit := by
  unfold rank_section
  rw [List.length_map, List.length_take]
  exact min_le_left _ _

/-! ## Helper lemmas: the empty job description -/

theorem fieldBonus_empty (it : Item) (f : String) : fieldBonus ∅ it f = 0 := by
  simp [fieldBonus]

theorem sum_map_fieldBonus_empty (it : Item) :
    ∀ fields : List String, (fields.map (fieldBonus ∅ it)).sum = 0 := by
  intro fields
  induction fields with
  | nil => rfl
  | cons f fs ih => simp [fieldBonus_empty, ih]

theorem score_item_empty (it : Item) (fields : List String) (tagsField : String) :
    score_item ∅ it fields tagsField = 0 := by
  unfold score_item tagBonus
  simp [sum_map_fieldBonus_empty]

theorem posScored_empty (items : List Item) (fields : List String) :
    posScored ∅ items fields = [] := by
  unfold posScored
  apply List.filter_eq_nil_iff.mpr
  intro p hp
  rcases List.mem_map.mp hp with ⟨it, hit, heq⟩
  subst heq
  simp [score_item_empty]

theorem rank_section_empty (items : List Item) (fields : List String) (limit : Nat) :
    rank_section ∅ items fields limit = [] := by
  unfold rank_section
  rw [posScored_empty]
  simp [sortDesc]

theorem pass2_empty : ∀ (l acc : List String), pass2 ∅ l acc = acc := by
  intro l
  induction l with
  | nil => intro acc; rfl
  | cons s rest ih =>
    intro acc
    rw [pass2_cons]
    by_cases h1 : s ∈ acc
    · rw [if_pos h1]; exact ih acc
    · rw [if_neg h1]
      have h2 : ¬ ((normalize s).toFinset ∩ (∅ : Finset String)).Nonempty := by simp
      rw [if_neg h2]
      exact ih acc

theorem matchedSkills_empty (ks : List String) (limit : Nat) :
    matchedSkills ∅ ks limit = [] := by
  simp only [matchedSkills]
  simp [pass2_empty]

/-! ## Helper lemmas: item field access and the tag bonus -/

theorem itemGet_cons_ne {k f : String} (h : k ≠ f) (v : Value) (rest : Item) :
    itemGet ((k, v) :: rest) f = itemGet rest f := by
  simp [itemGet, h]

theorem itemTags_cons_self (tagsField : String) (l : List String) (rest : Item) :
    itemTags ((tagsField, Value.vl l) :: rest) tagsField = l := by
  simp [itemTags, itemGet]

theorem lower_tags_toFinset (pre post : List String) (t : String) :
    ((pre ++ [t] ++ post).map lowerStr).toFinset
      = insert (lowerStr t) (((pre ++ post).map lowerStr).toFinset) := by
  ext a
  simp only [List.mem_toFinset, List.mem_map, List.mem_append, List.mem_singleton,
    Finset.mem_insert]
  constructor
  · rintro ⟨b, hb | hb, rfl⟩
    · rcases hb with hb | hb
      · exact Or.inr ⟨b, Or.inl hb, rfl⟩
      · exact Or.inl (by rw [hb])
    · exact Or.inr ⟨b, Or.inr hb, rfl⟩
  · rintro (rfl | ⟨b, hb | hb, rfl⟩)
    · exact ⟨t, Or.inl (Or.inr rfl), rfl⟩
    · exact ⟨b, Or.inl (Or.inl hb), rfl⟩
    · exact ⟨b, Or.inr hb, rfl⟩

theorem fieldBonus_cons_ne (jd : Finset String) {k f : String} (h : k ≠ f)
    (v w : Value) (rest : Item) :
    fieldBonus jd ((k, v) :: rest) f = fieldBonus jd ((k, w) :: rest) f := by
  unfold fieldBonus
  rw [itemGet_cons_ne h, itemGet_cons_ne h]

theorem fields_sum_congr (jd : Finset String) :
    ∀ (fields : List String) (tagsField : String), tagsField ∉ fields →
      ∀ (v w : Value) (rest : Item),
        (fields.map (fieldBonus jd ((tagsField, v) :: rest))).sum
          = (fields.map (fieldBonus jd ((tagsField, w) :: rest))).sum := by
  intro fields
  induction fields with
  | nil => intro _ _ _ _ _; rfl
  | cons f fs ih =>
    intro tagsField hf v w rest
    have h1 : tagsField ≠ f := fun he => hf (he ▸ List.mem_cons_self f fs)
    have h2 : tagsField ∉ fs := fun hm => hf (List.mem_cons_of_mem f hm)
    rw [List.map_cons, List.map_cons, List.sum_cons, List.sum_cons,
      fieldBonus_cons_ne jd h1 v w rest, ih tagsField h2 v w rest]

/-! ## The spec-worded tokenizer: maximal runs via takeWhile and dropWhile -/

theorem length_dropWhile_le {α : Type} (p : α → Bool) :
    ∀ l : List α, (l.dropWhile p).length ≤ l.length := by
  intro l
  induction l with
  | nil => simp
  | cons x xs ih =>
    by_cases h : p x
    · rw [List.dropWhile_cons_of_pos h]
      exact Nat.le_succ_of_le ih
    · rw [List.dropWhile_cons_of_neg h]

/-- The tokenizer as the spec words it: the ordered maximal runs of
characters from the token class, every other character a separator. -/
def maximalRuns : List Char → List String
  | [] => []
  | c :: cs =>
    if h : isTokChar c then
      String.mk ((c :: cs).takeWhile isTokChar)
        :: maximalRuns ((c :: cs).dropWhile isTokChar)
    else maximalRuns cs
termination_by l => l.length
decreasing_by
· rw [List.dropWhile_cons_of_pos h, List.length_cons]
  exact Nat.lt_succ_of_le (length_dropWhile_le isTokChar cs)
· rw [List.length_cons]
  exact Nat.lt_succ_self _

theorem maximalRuns_nil : maximalRuns [] = [] := by
  simp [maximalRuns]

theorem maximalRuns_cons_pos {c : Char} {cs : List Char} (h : isTokChar c) :
    maximalRuns (c :: cs)
      = String.mk ((c :: cs).takeWhile isTokChar)
        :: maximalRuns ((c :: cs).dropWhile isTokChar) := by
  simp [maximalRuns, h]

theorem maximalRuns_cons_neg {c : Char} {cs : List Char} (h : ¬ isTokChar c) :
    maximalRuns (c :: cs) = maximalRuns cs := by
  simp [maximalRuns, h]

theorem runsAux_spec :
    ∀ (cs cur : List Char), runsAux cs cur
      = if cur = [] then maximalRuns cs
        else String.mk (cur.reverse ++ cs.takeWhile isTokChar)
          :: maximalRuns (cs.dropWhile isTokChar) := by
  intro cs
  induction cs with
  | nil =>
    intro cur
    by_cases h : cur = []
    · simp [runsAux, h, maximalRuns_nil]
    · simp [runsAux, h, maximalRuns_nil]
  | cons c cs ih =>
    intro cur
    by_cases hc : isTokChar c
    · have hstep : runsAux (c :: cs) cur = runsAux cs (c :: cur) := by
        simp [runsAux, hc]
      rw [hstep, ih (c :: cur), if_neg (by simp : ¬ (c :: cur) = ([] : List Char))]
      by_cases h : cur = []
      · subst h
        rw [if_pos rfl, maximalRuns_cons_pos hc, List.takeWhile_cons_of_pos hc,
          List.dropWhile_cons_of_pos hc]
        simp
      · rw [if_neg h, List.takeWhile_cons_of_pos hc, List.dropWhile_cons_of_pos hc]
        simp
    · have hstep : runsAux (c :: cs) cur
          = if cur = [] then runsAux cs [] else String.mk cur.reverse :: runsAux cs [] := by
        simp [runsAux, hc]
      rw [hstep]
      by_cases h : cur = []
      · rw [if_pos h, if_pos h, ih [], if_pos rfl, maximalRuns_cons_neg hc]
      · rw [if_neg h, if_neg h, ih [], if_pos rfl, List.takeWhile_cons_of_neg hc,
          List.dropWhile_cons_of_neg hc, maximalRuns_cons_neg hc]
        simp

/-- The spec-worded tokenizer applied to the lower-cased text. -/
def normalizeSpec (text : String) : List String := maximalRuns (lowerStr text).data

/-! ## The spec-worded skills selection -/

/-- Skills selection as the spec words it: pass 1 keeps the skills whose
lower-cased whole string is in the token set, in knowledge-base order;
pass 2, only when pass 1 is below the limit, walks the knowledge base again
appending not-yet-kept skills whose token set meets the job-description
tokens; the combined list is truncated to the limit. -/
def skillsSpec (jd : Finset String) (kbSkills : List String) (limit : Nat) :
    List String :=
  let pass1 := kbSkills.filter (fun s => decide (lowerStr s ∈ jd))
  let combined :=
    if pass1.length < limit then
      kbSkills.foldl (fun acc s =>
        if s ∈ acc then acc
        else if ((normalize s).toFinset ∩ jd).Nonempty then acc ++ [s] else acc) pass1
    else pass1
  combined.take limit

theorem pass2_eq_foldl (jd : Finset String) :
    ∀ (l acc : List String),
      pass2 jd l acc = l.foldl (fun acc s =>
        if s ∈ acc then acc
        else if ((normalize s).toFinset ∩ jd).Nonempty then acc ++ [s] else acc) acc := by
  intro l
  induction l with
  | nil => intro acc; rfl
  | cons s rest ih =>
    intro acc
    rw [pass2_cons]
    simp only [List.foldl_cons]
    by_cases h1 : s ∈ acc
    · rw [if_pos h1, if_pos h1, ih]
    · rw [if_neg h1, if_neg h1]
      by_cases h2 : ((normalize s).toFinset ∩ jd).Nonempty
      · rw [if_pos h2, if_pos h2, ih]
      · rw [if_neg h2, if_neg h2, ih]

theorem matchedSkills_eq_skillsSpec (jd : Finset String) (ks : List String)
    (limit : Nat) : matchedSkills jd ks limit = skillsSpec jd ks limit := by
  simp only [matchedSkills, skillsSpec]
  rw [pass2_eq_foldl]

/-! ## Concrete fixtures -/

/-- The CLI-style limits mapping with every key present. -/
def limitsA : Limits := ⟨some 10, some 3, some 3, some 3, some 2⟩

/-- Limits with a skills cap of 2, for the two-pass skills scenario. -/
def limitsSkills2 : Limits := ⟨some 2, some 3, some 3, some 3, some 2⟩

/-- A small knowledge base with one matching project and three education rows. -/
def kbW : KB :=
  ⟨["Go", "SQL"], [[("name", Value.vs "Go Service")]], [], [],
    [[("degree", Value.vs "BS")], [("degree", Value.vs "MS")],
      [("degree", Value.vs "PhD")]]⟩

/-- A knowledge base whose skills list repeats the same entry. -/
def kbDup : KB := ⟨["go", "go"], [], [], [], []⟩

/-- The knowledge base of the skills two-pass scenario. -/
def kbSkillsEx : KB := ⟨["Go", "Python", "C++"], [], [], [], []⟩

/-- An empty knowledge base. -/
def kbNone : KB := ⟨[], [], [], [], []⟩

def projA : Item := [("name", Value.vs "P1")]

def projB : Item := [("name", Value.vs "P2")]

def expBE : Item := [("role", Value.vs "Backend Engineer")]

/-! ## Claims -/

/-- Claim C1, counterexample: with one experience item of role Backend
Engineer, matched skills Go and SQL both present in the job-description
tokens, and two projects, the summary is NOT the string the claim gives,
because the code joins the first sentence without a trailing period. -/
theorem make_summary_scenario_cex :
    make_summary (tokenize "go and sql") ["Go", "SQL"] [projA, projB] [expBE] kbNone
      ≠ "Backend Engineer with hands-on work in go, sql. Delivered 2 relevant project(s)." := by
  decide

/-- Claim C1, amended: the summary for that scenario is the same text except
that the first sentence carries no period before the joining space. -/
theorem make_summary_scenario :
    make_summary (tokenize "go and sql") ["Go", "SQL"] [projA, projB] [expBE] kbNone
      = "Backend Engineer with hands-on work in go, sql Delivered 2 relevant project(s)." := by
  decide

/-- Claim C2: with every Limits entry present, each of the five output
sequences of select_relevant is no longer than the corresponding entry. -/
theorem select_relevant_quota (kb : KB) (jdText : String) (limits : Limits)
    (ns np ne nc nd : Nat)
    (hs : limits.skills = some ns) (hp : limits.projects = some np)
    (he : limits.experience = some ne) (hc : limits.certificates = some nc)
    (hd : limits.education = some nd) :
    (select_relevant kb jdText limits).1.length ≤ ns
    ∧ (select_relevant kb jdText limits).2.1.length ≤ np
    ∧ (select_relevant kb jdText limits).2.2.1.length ≤ ne
    ∧ (select_relevant kb jdText limits).2.2.2.1.length ≤ nc
    ∧ (select_relevant kb jdText limits).2.2.2.2.1.length ≤ nd := by
  refine ⟨?_, ?_, ?_, ?_, ?_⟩
  · show (matchedSkills (tokenize jdText) kb.skills (limits.skills.getD 10)).length ≤ ns
    rw [hs, Option.getD_some]
    exact matchedSkills_length_le _ _ _
  · show (rank_section (tokenize jdText) kb.projects projectFields
      (limits.projects.getD 3)).length ≤ np
    rw [hp, Option.getD_some]
    exact rank_section_length_le _ _ _ _
  · show (rank_section (tokenize jdText) kb.experience experienceFields
      (limits.experience.getD 3)).length ≤ ne
    rw [he, Option.getD_some]
    exact rank_section_length_le _ _ _ _
  · show (rank_section (tokenize jdText) kb.certificates certificateFields
      (limits.certificates.getD 3)).length ≤ nc
    rw [hc, Option.getD_some]
    exact rank_section_length_le _ _ _ _
  · show (kb.education.take (limits.education.getD 2)).length ≤ nd
    rw [hd, Option.getD_some, List.length_take]
    exact min_le_left _ _

/-- Witness for claim C2 at a concrete knowledge base and limits. -/
theorem select_relevant_quota_witness :
    (select_relevant kbW "go" limitsA).1.length ≤ 10
    ∧ (select_relevant kbW "go" limitsA).2.1.length ≤ 3
    ∧ (select_relevant kbW "go" limitsA).2.2.1.length ≤ 3
    ∧ (select_relevant kbW "go" limitsA).2.2.2.1.length ≤ 3
    ∧ (select_relevant kbW "go" limitsA).2.2.2.2.1.length ≤ 2 :=
  select_relevant_quota kbW "go" limitsA 10 3 3 3 2 rfl rfl rfl rfl rfl

/-- Claim C3: no item of score zero appears in the ranked projects,
experience, or certificates output of select_relevant. -/
theorem rank_zero_score_excluded (kb : KB) (jdText : String) (limits : Limits) :
    (∀ it ∈ (select_relevant kb jdText limits).2.1,
        0 < score_item (tokenize jdText) it projectFields "tags")
    ∧ (∀ it ∈ (select_relevant kb jdText limits).2.2.1,
        0 < score_item (tokenize jdText) it experienceFields "tags")
    ∧ (∀ it ∈ (select_relevant kb jdText limits).2.2.2.1,
        0 < score_item (tokenize jdText) it certificateFields "tags") := by
  refine ⟨?_, ?_, ?_⟩
  · intro it hit
    have hit' : it ∈ rank_section (tokenize jdText) kb.projects projectFields
        (limits.projects.getD 3) := hit
    exact (mem_rank_section hit').2
  · intro it hit
    have hit' : it ∈ rank_section (tokenize jdText) kb.experience experienceFields
        (limits.experience.getD 3) := hit
    exact (mem_rank_section hit').2
  · intro it hit
    have hit' : it ∈ rank_section (tokenize jdText) kb.certificates certificateFields
        (limits.certificates.getD 3) := hit
    exact (mem_rank_section hit').2

/-- Witness for claim C3: the one selected project of the concrete run
scores positively. -/
theorem rank_zero_score_excluded_witness :
    0 < score_item (tokenize "go") [("name", Value.vs "Go Service")] projectFields "tags" :=
  (rank_zero_score_excluded kbW "go" limitsA).1 [("name", Value.vs "Go Service")]
    (by decide)

/-- Claim C4: within each ranked category output the recomputed scores are
non-increasing, and the sort is stable: for every score value, the slice of
the taken sorted pair list at that score is a prefix of the same slice of
the scored input list, whose item order is the knowledge-base order (the
scored list maps back onto the input in order). -/
theorem rank_sorted_stable (kb : KB) (jdText : String) (limits : Limits) :
    (List.Pairwise (fun a b =>
        score_item (tokenize jdText) b projectFields "tags"
          ≤ score_item (tokenize jdText) a projectFields "tags")
      (select_relevant kb jdText limits).2.1)
    ∧ (List.Pairwise (fun a b =>
        score_item (tokenize jdText) b experienceFields "tags"
          ≤ score_item (tokenize jdText) a experienceFields "tags")
      (select_relevant kb jdText limits).2.2.1)
    ∧ (List.Pairwise (fun a b =>
        score_item (tokenize jdText) b certificateFields "tags"
          ≤ score_item (tokenize jdText) a certificateFields "tags")
      (select_relevant kb jdText limits).2.2.2.1)
    ∧ ∀ (jd : Finset String) (items : List Item) (fields : List String)
        (limit k : Nat),
        (((sortDesc Prod.fst (posScored jd items fields)).take limit).filter
            (fun p => p.1 == k)
          <+: (posScored jd items fields).filter (fun p => p.1 == k))
        ∧ (posScored jd items fields).map Prod.snd
          = items.filter (fun it => decide (0 < score_item jd it fields "tags")) := by
  refine ⟨rank_section_pairwise _ _ _ _, rank_section_pairwise _ _ _ _,
    rank_section_pairwise _ _ _ _, ?_⟩
  intro jd items fields limit k
  constructor
  · rw [← sortDesc_filter Prod.fst k (posScored jd items fields)]
    exact filter_take_pfx _ _ _
  · exact posScored_map_snd jd fields items

/-- Claim C5: the skills selection agrees with the two-pass, order-preserving
procedure the spec describes, and on the concrete scenario returns exactly
Python then C++. -/
theorem skills_two_pass :
    (∀ (jd : Finset String) (kbSkills : List String) (limit : Nat),
        matchedSkills jd kbSkills limit = skillsSpec jd kbSkills limit)
    ∧ (select_relevant kbSkillsEx "experience with python and c++" limitsSkills2).1
      = ["Python", "C++"] :=
  ⟨matchedSkills_eq_skillsSpec, by decide⟩

/-- Claim C6, counterexample: a knowledge base whose skills list repeats an
entry produces a duplicated matched-skills output, so the no-duplication
part of the claim fails as stated. -/
theorem select_relevant_dup_cex :
    ¬ ((select_relevant kbDup "go" limitsA).1.Nodup) := by
  decide

/-- Claim C6, amended: every element of every output category comes from the
corresponding knowledge-base collection, and a category output has no
duplicates whenever that knowledge-base collection itself has none (the code
does not deduplicate knowledge-base duplicates). -/
theorem select_relevant_membership_nodup (kb : KB) (jdText : String)
    (limits : Limits) :
    (∀ s ∈ (select_relevant kb jdText limits).1, s ∈ kb.skills)
    ∧ (∀ it ∈ (select_relevant kb jdText limits).2.1, it ∈ kb.projects)
    ∧ (∀ it ∈ (select_relevant kb jdText limits).2.2.1, it ∈ kb.experience)
    ∧ (∀ it ∈ (select_relevant kb jdText limits).2.2.2.1, it ∈ kb.certificates)
    ∧ (∀ it ∈ (select_relevant kb jdText limits).2.2.2.2.1, it ∈ kb.education)
    ∧ (kb.skills.Nodup → (select_relevant kb jdText limits).1.Nodup)
    ∧ (kb.projects.Nodup → (select_relevant kb jdText limits).2.1.Nodup)
    ∧ (kb.experience.Nodup → (select_relevant kb jdText limits).2.2.1.Nodup)
    ∧ (kb.certificates.Nodup → (select_relevant kb jdText limits).2.2.2.1.Nodup)
    ∧ (kb.education.Nodup → (select_relevant kb jdText limits).2.2.2.2.1.Nodup) := by
  refine ⟨?_, ?_, ?_, ?_, ?_, ?_, ?_, ?_, ?_, ?_⟩
  · intro s hs
    have hs' : s ∈ matchedSkills (tokenize jdText) kb.skills
        (limits.skills.getD 10) := hs
    exact mem_matchedSkills hs'
  · intro it hit
    have hit' : it ∈ rank_section (tokenize jdText) kb.projects projectFields
        (limits.projects.getD 3) := hit
    exact (mem_rank_section hit').1
  · intro it hit
    have hit' : it ∈ rank_section (tokenize jdText) kb.experience experienceFields
        (limits.experience.getD 3) := hit
    exact (mem_rank_section hit').1
  · intro it hit
    have hit' : it ∈ rank_section (tokenize jdText) kb.certificates certificateFields
        (limits.certificates.getD 3) := hit
    exact (mem_rank_section hit').1
  · intro it hit
    have hit' : it ∈ kb.education.take (limits.education.getD 2) := hit
    exact List.take_subset _ _ hit'
  · intro h
    show (matchedSkills (tokenize jdText) kb.skills (limits.skills.getD 10)).Nodup
    exact matchedSkills_nodup h
  · intro h
    show (rank_section (tokenize jdText) kb.projects projectFields
      (limits.projects.getD 3)).Nodup
    exact rank_section_nodup h
  · intro h
    show (rank_section (tokenize jdText) kb.experience experienceFields
      (limits.experience.getD 3)).Nodup
    exact rank_section_nodup h
  · intro h
    show (rank_section (tokenize jdText) kb.certificates certificateFields
      (limits.certificates.getD 3)).Nodup
    exact rank_section_nodup h
  · intro h
    show (kb.education.take (limits.education.getD 2)).Nodup
    exact List.Nodup.sublist (List.take_sublist _ _) h

/-- Witness for the amended claim C6 at a concrete run. -/
theorem select_relevant_membership_nodup_witness :
    "Go" ∈ kbW.skills :=
  (select_relevant_membership_nodup kbW "go" limitsA).1 "Go" (by decide)

/-- Claim C7, counterexample: when the matching tag occurs twice, removing
one occurrence does not change the score at all, so the claimed difference
of exactly 3 fails. -/
theorem tag_bonus_cex :
    ¬ (score_item (tokenize "go") [("tags", Value.vl ["go", "go"])] [] "tags"
      = score_item (tokenize "go") [("tags", Value.vl ["go"])] [] "tags" + 3) := by
  decide

/-- Claim C7, amended: removing a tag whose lower-cased form is in the
job-description tokens lowers the score by exactly 3, provided no other tag
lower-cases to the same string and the tags field is not among the scored
fields. -/
theorem tag_bonus_exact_three (jd : Finset String) (fields : List String)
    (tagsField : String) (pre post : List String) (t : String) (rest : Item)
    (hjd : lowerStr t ∈ jd)
    (huniq : lowerStr t ∉ (pre ++ post).map lowerStr)
    (hfields : tagsField ∉ fields) :
    score_item jd ((tagsField, Value.vl (pre ++ [t] ++ post)) :: rest) fields tagsField
      = score_item jd ((tagsField, Value.vl (pre ++ post)) :: rest) fields tagsField
        + 3 := by
  unfold score_item
  rw [fields_sum_congr jd fields tagsField hfields (Value.vl (pre ++ [t] ++ post))
    (Value.vl (pre ++ post)) rest]
  unfold tagBonus
  rw [itemTags_cons_self, itemTags_cons_self, lower_tags_toFinset,
    Finset.insert_inter_of_mem hjd,
    Finset.card_insert_of_not_mem
      (fun hm => huniq (List.mem_toFinset.mp (Finset.mem_inter.mp hm).1))]
  omega

/-- Witness for the amended claim C7 at a concrete tag and token set. -/
theorem tag_bonus_exact_three_witness :
    (lowerStr "Go" ∈ tokenize "go")
    ∧ score_item (tokenize "go")
        [("tags", Value.vl (([] : List String) ++ ["Go"] ++ []))] ["name"] "tags"
      = score_item (tokenize "go")
        [("tags", Value.vl (([] : List String) ++ []))] ["name"] "tags" + 3 :=
  ⟨by decide,
    tag_bonus_exact_three (tokenize "go") ["name"] "tags" [] [] "Go" []
      (by decide) (by decide) (by decide)⟩

/-- Claim C8: an empty job description gives an empty token set, empty
matched skills and empty ranked sections, while education still returns the
first N knowledge-base entries. -/
theorem empty_jd_selection (kb : KB) (limits : Limits) (n : Nat)
    (he : limits.education = some n) :
    tokenize "" = ∅
    ∧ (select_relevant kb "" limits).1 = []
    ∧ (select_relevant kb "" limits).2.1 = []
    ∧ (select_relevant kb "" limits).2.2.1 = []
    ∧ (select_relevant kb "" limits).2.2.2.1 = []
    ∧ (select_relevant kb "" limits).2.2.2.2.1 = kb.education.take n := by
  have h0 : tokenize "" = ∅ := rfl
  refine ⟨h0, ?_, ?_, ?_, ?_, ?_⟩
  · show matchedSkills (tokenize "") kb.skills (limits.skills.getD 10) = []
    rw [h0]
    exact matchedSkills_empty _ _
  · show rank_section (tokenize "") kb.projects projectFields
      (limits.projects.getD 3) = []
    rw [h0]
    exact rank_section_empty _ _ _
  · show rank_section (tokenize "") kb.experience experienceFields
      (limits.experience.getD 3) = []
    rw [h0]
    exact rank_section_empty _ _ _
  · show rank_section (tokenize "") kb.certificates certificateFields
      (limits.certificates.getD 3) = []
    rw [h0]
    exact rank_section_empty _ _ _
  · show kb.education.take (limits.education.getD 2) = kb.education.take n
    rw [he, Option.getD_some]

/-- Witness for claim C8 at a concrete knowledge base. -/
theorem empty_jd_selection_witness :
    (select_relevant kbW "" limitsA).2.2.2.2.1 = kbW.education.take 2 :=
  (empty_jd_selection kbW limitsA 2 rfl).2.2.2.2.2

/-- Claim C9: the tokenizer lower-cases the text and returns its maximal runs
of characters from the token class, and on the concrete input yields the
three expected tokens. -/
theorem normalize_runs :
    normalize "C++ Node.js, AWS!!" = ["c++", "node.js", "aws"]
    ∧ ∀ text : String, normalize text = normalizeSpec text := by
  refine ⟨by decide, ?_⟩
  intro text
  unfold normalize normalizeSpec
  rw [runsAux_spec]
  simp

/-- Claim C10: a tag whose lower-cased form contains a character outside the
token class can never be a job-description token, so it contributes nothing
to the tag bonus: removing it leaves the tag bonus unchanged. -/
theorem nonword_tag_no_bonus (text : String) (tagsField : String)
    (pre post : List String) (t : String) (rest : Item)
    (hbad : ∃ c ∈ (lowerStr t).data, ¬ isTokChar c) :
    tagBonus (tokenize text) ((tagsField, Value.vl (pre ++ [t] ++ post)) :: rest)
        tagsField
      = tagBonus (tokenize text) ((tagsField, Value.vl (pre ++ post)) :: rest)
        tagsField := by
  have hnot : lowerStr t ∉ tokenize text := not_mem_tokenize hbad
  unfold tagBonus
  rw [itemTags_cons_self, itemTags_cons_self, lower_tags_toFinset,
    Finset.insert_inter_of_not_mem hnot]

/-- Witness for claim C10: a multi-word tag earns no bonus. -/
theorem nonword_tag_no_bonus_witness :
    (∃ c ∈ (lowerStr "machine learning").data, ¬ isTokChar c)
    ∧ tagBonus (tokenize "machine learning experience")
        [("tags", Value.vl (([] : List String) ++ ["machine learning"] ++ []))] "tags"
      = tagBonus (tokenize "machine learning experience")
        [("tags", Value.vl (([] : List String) ++ []))] "tags" :=
  ⟨by decide,
    nonword_tag_no_bonus "machine learning experience" "tags" [] [] "machine learning"
      [] (by decide)⟩

end ResumeBuilder
